import Mathlib

/-!
Verification of the anymalign multilingual aligner (`anymalign.py`).

Shallow embedding conventions:
* Python dictionaries become association lists (`alookup` / `aset`);
* temporary files become Lean lists (in emission order);
* Python floats become exact rationals `ℚ`;
* Python's built-in `hash` on strings becomes an abstract function
  `h : String → ℤ` that the theorems quantify over;
* `random.random()` draws become explicit arguments `r : ℚ`.
-/

namespace Anymalign

/-! ### Association lists (Python dictionaries) -/

/-- Lookup in an association list; models Python `dict.get`. -/
def alookup {κ ν : Type} [DecidableEq κ] : List (κ × ν) → κ → Option ν
  | [], _ => none
  | (k, v) :: rest, key => if key = k then some v else alookup rest key

/-- Update/insert in an association list; models Python `dict[key] = val`.
A new key is appended at the end, so entry order is insertion order. -/
def aset {κ ν : Type} [DecidableEq κ] : List (κ × ν) → κ → ν → List (κ × ν)
  | [], key, val => [(key, val)]
  | (k, v) :: rest, key, val =>
      if key = k then (k, val) :: rest else (k, v) :: aset rest key val

theorem alookup_aset {κ ν : Type} [DecidableEq κ] (l : List (κ × ν)) (k k' : κ) (v : ν) :
    alookup (aset l k v) k' = if k' = k then some v else alookup l k' := by
  induction l with
  | nil => by_cases h : k' = k <;> simp [aset, alookup, h]
  | cons p rest ih =>
      obtain ⟨k₀, v₀⟩ := p
      by_cases h1 : k = k₀
      · subst h1
        by_cases h2 : k' = k <;> simp [aset, alookup, h2]
      · by_cases h2 : k' = k₀
        · subst h2
          simp [aset, alookup, h1, Ne.symm h1, ih]
        · simp [aset, alookup, h1, h2, ih]

theorem alookup_eq_none_iff {κ ν : Type} [DecidableEq κ] (l : List (κ × ν)) (k : κ) :
    alookup l k = none ↔ k ∉ l.map Prod.fst := by
  induction l with
  | nil => simp [alookup]
  | cons p rest ih =>
      obtain ⟨k₀, v₀⟩ := p
      by_cases h : k = k₀ <;> simp [alookup, h, ih]

/-- Keys of `aset` when the key is already present: unchanged. -/
theorem aset_map_fst_of_mem {κ ν : Type} [DecidableEq κ] (l : List (κ × ν)) (k : κ) (v : ν)
    (h : k ∈ l.map Prod.fst) : (aset l k v).map Prod.fst = l.map Prod.fst := by
  induction l with
  | nil => simp at h
  | cons p rest ih =>
      obtain ⟨k₀, v₀⟩ := p
      by_cases h1 : k = k₀
      · simp [aset, h1]
      · simp only [List.map_cons, List.mem_cons] at h
        rcases h with h | h
        · exact absurd h h1
        · simp [aset, h1, ih h]

/-- Keys of `aset` when the key is absent: appended at the end. -/
theorem aset_map_fst_of_not_mem {κ ν : Type} [DecidableEq κ] (l : List (κ × ν)) (k : κ) (v : ν)
    (h : k ∉ l.map Prod.fst) : (aset l k v).map Prod.fst = l.map Prod.fst ++ [k] := by
  induction l with
  | nil => simp [aset]
  | cons p rest ih =>
      obtain ⟨k₀, v₀⟩ := p
      simp only [List.map_cons, List.mem_cons] at h
      push_neg at h
      simp [aset, h.1, ih h.2]

/-! ### The `Distribution` class (anymalign.py, lines 265-304)

`Distribution.__init__` evaluates the weight function on the integer
interval `[start, end]`, normalises, and stores the running cumulative
sums.  `Distribution.next` draws a uniform `r` in `[0,1)` and scans the
cumulative table for the first entry exceeding `r`; if the loop falls
through (possible with single-precision rounding) it returns the last
domain value.  Floats are modelled as exact rationals; the weight
function is kept abstract. -/

structure Distribution where
  values : List ℚ
  start : ℤ

/-- The running-sum loop of `Distribution.__init__`:
`s += fact * v; values[i] = s`. -/
def cumulAux (fact : ℚ) : ℚ → List ℚ → List ℚ
  | _, [] => []
  | s, v :: vs => (s + fact * v) :: cumulAux fact (s + fact * v) vs

/-- Cumulative table of `Distribution.__init__` with `fact = 1 / sum(values)`. -/
def cumulate (ws : List ℚ) : List ℚ := cumulAux (1 / ws.sum) 0 ws

/-- Model of `Distribution.__init__(function, start, end)`. -/
def mkDistribution (f : ℤ → ℚ) (start stop : ℤ) : Distribution :=
  ⟨cumulate ((List.range (stop + 1 - start).toNat).map (fun i : ℕ => f (start + i))),
    start⟩

/-- Index returned by the scan loop of `Distribution.next`: the first index
whose value exceeds `r`, and the Python loop variable's final value
(`nbVal - 1`, or `-1` on an empty table) on fallthrough. -/
def nextIdx (r : ℚ) : List ℚ → ℤ
  | [] => -1
  | v :: vs => if r < v then 0 else 1 + nextIdx r vs

/-- Model of `Distribution.next`, with the uniform draw `r` made explicit. -/
def Distribution.next (d : Distribution) (r : ℚ) : ℤ :=
  d.start + nextIdx r d.values

/-- Subcorpus size domain chosen by `Aligner.run` (lines 1001-1013):
`[2, nbLines-1]` when `nbLines > 2`, else the theoretically correct
`[1, nbLines]`. -/
def runBounds (nbLines : ℕ) : ℤ × ℤ :=
  if 2 < nbLines then (2, (nbLines : ℤ) - 1) else (1, (nbLines : ℤ))

theorem cumulAux_length (fact : ℚ) (s : ℚ) (ws : List ℚ) :
    (cumulAux fact s ws).length = ws.length := by
  induction ws generalizing s with
  | nil => rfl
  | cons v vs ih => simp [cumulAux, ih]

theorem nextIdx_le (r : ℚ) (l : List ℚ) : nextIdx r l ≤ (l.length : ℤ) - 1 := by
  induction l with
  | nil => simp [nextIdx]
  | cons v vs ih =>
      by_cases h : r < v
      · simp only [nextIdx, h, if_true, List.length_cons]
        omega
      · simp only [nextIdx, h, if_false, List.length_cons]
        omega

theorem nextIdx_nonneg (r : ℚ) (l : List ℚ) (h : l ≠ []) : 0 ≤ nextIdx r l := by
  cases l with
  | nil => exact absurd rfl h
  | cons v vs =>
      by_cases hr : r < v
      · simp [nextIdx, hr]
      · have := nextIdx_le r vs
        simp only [nextIdx, hr, if_false]
        have h2 : -1 ≤ nextIdx r vs := by
          cases vs with
          | nil => simp [nextIdx]
          | cons w ws => have := nextIdx_nonneg r (w :: ws) (by simp); omega
        omega

theorem nextIdx_of_all_le (r : ℚ) (l : List ℚ) (h : ∀ v ∈ l, v ≤ r) :
    nextIdx r l = (l.length : ℤ) - 1 := by
  induction l with
  | nil => simp [nextIdx]
  | cons v vs ih =>
      have hv : ¬ r < v := not_lt.mpr (h v (by simp))
      simp only [nextIdx, hv, if_false, List.length_cons]
      rw [ih (fun w hw => h w (by simp [hw]))]
      omega

/-- If some table entry exceeds `r`, the scan stops at the first such entry. -/
theorem nextIdx_hit (r : ℚ) (l : List ℚ)
    (hex : ∃ j, ∃ hj : j < l.length, r < l[j]) :
    ∃ i, ∃ hi : i < l.length, nextIdx r l = i ∧ r < l[i] ∧
      ∀ j (hji : j < i), getElem l j (by omega) ≤ r := by
  induction l with
  | nil => obtain ⟨j, hj, _⟩ := hex; simp at hj
  | cons v vs ih =>
      by_cases hv : r < v
      · exact ⟨0, by simp, by simp [nextIdx, hv], by simpa using hv, by omega⟩
      · have hex' : ∃ j, ∃ hj : j < vs.length, r < vs[j] := by
          obtain ⟨j, hj, hrj⟩ := hex
          cases j with
          | zero => exact absurd (by simpa using hrj) hv
          | succ j' => exact ⟨j', by simpa using hj, by simpa using hrj⟩
        obtain ⟨i', hi', heq, hlt, hle⟩ := ih hex'
        refine ⟨i' + 1, by simpa using hi', ?_, by simpa using hlt, ?_⟩
        · simp only [nextIdx, hv, if_false, heq]
          push_cast
          ring
        · intro j hji
          cases j with
          | zero => simpa using not_lt.mp hv
          | succ j' => simpa using hle j' (by omega)

theorem cumulAux_getElem (fact : ℚ) (ws : List ℚ) (s : ℚ) (i : ℕ) (hi : i < ws.length) :
    getElem (cumulAux fact s ws) i (by rw [cumulAux_length]; exact hi) =
      s + fact * (ws.take (i + 1)).sum := by
  induction ws generalizing s i with
  | nil => simp at hi
  | cons v vs ih =>
      cases i with
      | zero => simp [cumulAux]
      | succ i' =>
          have := ih (s + fact * v) i' (by simpa using hi)
          simp only [cumulAux, List.getElem_cons_succ, List.take_succ_cons, List.sum_cons]
          rw [this]
          ring

/-- Single-step difference of the normalised cumulative sums. -/
theorem take_sum_div_succ (ws : List ℚ) (i : ℕ) (hi : i < ws.length) :
    (ws.take (i + 1)).sum / ws.sum = (ws.take i).sum / ws.sum + ws[i] / ws.sum := by
  rw [List.sum_take_succ ws i hi, add_div]

/-- Monotonicity of the normalised cumulative sums under positive
normalised weights. -/
theorem take_sum_div_mono (ws : List ℚ)
    (hpos : ∀ j (hj : j < ws.length), 0 < ws[j] / ws.sum) :
    ∀ a b, a ≤ b → b ≤ ws.length →
      (ws.take a).sum / ws.sum ≤ (ws.take b).sum / ws.sum := by
  intro a b hab hb
  induction b with
  | zero =>
      have : a = 0 := by omega
      subst this
      exact le_refl _
  | succ b' ih =>
      rcases Nat.lt_or_ge a (b' + 1) with h | h
      · have h1 := ih (by omega) (by omega)
        have h2 := take_sum_div_succ ws b' (by omega)
        have h3 := hpos b' (by omega)
        rw [h2]
        linarith
      · have : a = b' + 1 := by omega
        subst this
        exact le_refl _

theorem cumulate_length (ws : List ℚ) : (cumulate ws).length = ws.length :=
  cumulAux_length _ _ _

theorem cumulate_getElem (ws : List ℚ) (i : ℕ) (hi : i < ws.length) :
    getElem (cumulate ws) i (by rw [cumulate_length]; exact hi) =
      (ws.take (i + 1)).sum / ws.sum := by
  show getElem (cumulAux (1 / ws.sum) 0 ws) i _ = _
  rw [cumulAux_getElem (1 / ws.sum) ws 0 i hi, zero_add, div_mul_eq_mul_div, one_mul]

/-- C9.  `Distribution.next` always lands in the construction interval
`[start, end]`; when every table entry is at most `r` (which exact
arithmetic rules out but single-precision rounding can produce), the
fallthrough branch returns `end`. -/
theorem distribution_next_in_range (f : ℤ → ℚ) (s e : ℤ) (r : ℚ)
    (hse : s ≤ e)
    (hsum : ((List.range (e + 1 - s).toNat).map (fun i : ℕ => f (s + i))).sum ≠ 0) :
    s ≤ (mkDistribution f s e).next r ∧ (mkDistribution f s e).next r ≤ e ∧
      ((∀ v ∈ (mkDistribution f s e).values, v ≤ r) →
        (mkDistribution f s e).next r = e) := by
  have hlen : ((mkDistribution f s e).values).length = (e + 1 - s).toNat := by
    simp [mkDistribution, cumulate, cumulAux_length]
  have hcast : (((e + 1 - s).toNat : ℤ)) = e + 1 - s := Int.toNat_of_nonneg (by omega)
  have hne : (mkDistribution f s e).values ≠ [] := by
    intro h
    rw [h] at hlen
    simp at hlen
    omega
  have hlow : 0 ≤ nextIdx r (mkDistribution f s e).values :=
    nextIdx_nonneg r _ hne
  have hhigh : nextIdx r (mkDistribution f s e).values ≤
      (((mkDistribution f s e).values.length : ℤ)) - 1 := nextIdx_le r _
  rw [hlen] at hhigh
  refine ⟨?_, ?_, ?_⟩
  · show s ≤ s + nextIdx r (mkDistribution f s e).values
    omega
  · show s + nextIdx r (mkDistribution f s e).values ≤ e
    omega
  · intro hall
    show s + nextIdx r (mkDistribution f s e).values = e
    rw [nextIdx_of_all_le r _ hall, hlen]
    omega

/-- C9 witness: a concrete constructed distribution. -/
theorem distribution_next_in_range_witness :
    (1 : ℤ) ≤ (mkDistribution (fun _ => 1) 1 1).next (1/2) ∧
      (mkDistribution (fun _ => 1) 1 1).next (1/2) ≤ 1 ∧
      ((∀ v ∈ (mkDistribution (fun _ => 1) 1 1).values, v ≤ (1/2 : ℚ)) →
        (mkDistribution (fun _ => 1) 1 1).next (1/2) = 1) :=
  distribution_next_in_range (fun _ => 1) 1 1 (1/2) (le_refl 1)
    (by norm_num [List.range_succ])

/-- C6.  Subcorpus-size sampling: `Aligner.run` uses the domain
`[2, nbLines-1]` when `nbLines > 2` and `[1, nbLines]` otherwise; one
uniform draw `r ∈ [0,1)` is consumed per call and `Distribution.next`
returns `start + i` for the first index `i` whose cumulative value
exceeds `r`; for an exact cumulative table over weights `ws` that set of
draws is the interval of width `ws[i] / ws.sum`, so size `start + i` is
drawn with probability proportional to its weight. -/
theorem subcorpus_size_sampling (nbLines : ℕ) (ws : List ℚ) (s : ℤ) (r : ℚ) (i : ℕ)
    (hpos : ∀ j (hj : j < ws.length), 0 < ws[j] / ws.sum)
    (hi : i < ws.length) (h0 : 0 ≤ r) (h1 : r < 1) :
    (2 < nbLines → runBounds nbLines = (2, (nbLines : ℤ) - 1)) ∧
    (nbLines ≤ 2 → runBounds nbLines = (1, (nbLines : ℤ))) ∧
    (Distribution.next ⟨cumulate ws, s⟩ r = s + i ↔
      (ws.take i).sum / ws.sum ≤ r ∧ r < (ws.take (i + 1)).sum / ws.sum) ∧
    (ws.take (i + 1)).sum / ws.sum - (ws.take i).sum / ws.sum = ws[i] / ws.sum := by
  have hS : ws.sum ≠ 0 := by
    intro h
    have := hpos i hi
    rw [h, div_zero] at this
    exact lt_irrefl 0 this
  have hlen : (cumulate ws).length = ws.length := cumulate_length ws
  have hlast : ∃ j, ∃ hj : j < (cumulate ws).length, r < (cumulate ws)[j] := by
    refine ⟨ws.length - 1, by omega, ?_⟩
    have h2 : getElem (cumulate ws) (ws.length - 1) (by omega) =
        (ws.take (ws.length - 1 + 1)).sum / ws.sum := cumulate_getElem ws _ (by omega)
    have h3 : ws.length - 1 + 1 = ws.length := by omega
    rw [h2, h3, List.take_length, div_self hS]
    exact h1
  obtain ⟨i0, hi0, heq, hlt, hle⟩ := nextIdx_hit r (cumulate ws) hlast
  have hgetl : ∀ j (hj : j < ws.length),
      getElem (cumulate ws) j (by omega) = (ws.take (j + 1)).sum / ws.sum :=
    fun j hj => cumulate_getElem ws j hj
  refine ⟨?_, ?_, ?_, ?_⟩
  · intro h
    simp [runBounds, h]
  · intro h
    have : ¬ 2 < nbLines := by omega
    simp [runBounds, this]
  · constructor
    · intro hnext
      have hidx : nextIdx r (cumulate ws) = (i : ℤ) := by
        have : s + nextIdx r (cumulate ws) = s + i := hnext
        omega
      have hii : i0 = i := by
        rw [heq] at hidx
        exact_mod_cast hidx
      subst hii
      constructor
      · cases i0 with
        | zero => simpa using h0
        | succ i' =>
            have := hle i' (by omega)
            rw [hgetl i' (by omega)] at this
            simpa using this
      · rw [hgetl i0 (by omega)] at hlt
        exact hlt
    · rintro ⟨hlo, hhi⟩
      have hii : i0 = i := by
        rcases Nat.lt_trichotomy i0 i with h | h | h
        · exfalso
          rw [hgetl i0 (by omega)] at hlt
          have hm := take_sum_div_mono ws hpos (i0 + 1) i (by omega) (by omega)
          linarith
        · exact h
        · exfalso
          have := hle i (by omega)
          rw [hgetl i (by omega)] at this
          linarith
      show s + nextIdx r (cumulate ws) = s + i
      rw [heq, hii]
  · rw [take_sum_div_succ ws i hi]
    ring

/-- C6 witness: a concrete table, draw and index. -/
theorem subcorpus_size_sampling_witness :
    (2 < 5 → runBounds 5 = (2, (5 : ℤ) - 1)) ∧
    (5 ≤ 2 → runBounds 5 = (1, (5 : ℤ))) ∧
    (Distribution.next ⟨cumulate [1/2, 1/2], 2⟩ 0 = 2 + 0 ↔
      (([1/2, 1/2] : List ℚ).take 0).sum / ([1/2, 1/2] : List ℚ).sum ≤ 0 ∧
        (0 : ℚ) < (([1/2, 1/2] : List ℚ).take (0 + 1)).sum / ([1/2, 1/2] : List ℚ).sum) ∧
    (([1/2, 1/2] : List ℚ).take (0 + 1)).sum / ([1/2, 1/2] : List ℚ).sum -
        (([1/2, 1/2] : List ℚ).take 0).sum / ([1/2, 1/2] : List ℚ).sum =
      ([1/2, 1/2] : List ℚ)[0] / ([1/2, 1/2] : List ℚ).sum :=
  subcorpus_size_sampling 5 [1/2, 1/2] 2 0 0
    (by
      intro j hj
      simp only [List.length_cons, List.length_nil] at hj
      interval_cases j <;> norm_num)
    (by norm_num) (le_refl 0) (by norm_num)

/-! ### `parse_field_numbers` (anymalign.py, lines 56-96)

Python's single-character `str.split(sep)` is modelled by a structural
recursion on the character list, and `int(str)` by `pyInt` (optional
surrounding whitespace, optional leading `+`, then decimal digits —
Python 2 `int` semantics restricted to ASCII). -/

/-- Split a character list on a separator character; models Python
`str.split(sep)` for a one-character separator (`""` yields `[""]`). -/
def splitOnChar (c : Char) : List Char → List (List Char)
  | [] => [[]]
  | a :: as =>
      match splitOnChar c as with
      | [] => [[]]
      | h :: t => if a = c then [] :: h :: t else (a :: h) :: t

/-- String wrapper around `splitOnChar`. -/
def strSplit (s : String) (c : Char) : List String :=
  (splitOnChar c s.data).map String.mk

/-- Model of Python 2 `int(str)` restricted to the non-negative numerals
that can appear here (the pieces contain no `-`): optional surrounding
whitespace, an optional `+` sign, then one or more decimal digits. -/
def pyInt (s : String) : Option ℕ :=
  let t := ((s.data.dropWhile Char.isWhitespace).reverse.dropWhile
    Char.isWhitespace).reverse
  let u := match t with
    | '+' :: rest => rest
    | _ => t
  if u ≠ [] ∧ u.all Char.isDigit then
    some (u.foldl (fun a c => 10 * a + (c.toNat - 48)) 0)
  else none

/-- Processing of one dash-split item of `parse_field_numbers`: a single
piece is added verbatim; two pieces give a run, an omitted start
defaulting to `1` and an omitted end to `maxFields`; more than two pieces
raise `ValueError` (`.error ()`).  The zero-piece case cannot arise from
`str.split`. -/
def itemSetParts (maxFields : ℕ) : List String → Except Unit (Finset ℕ)
  | [] => .ok ∅
  | [p] =>
      match pyInt p with
      | some n => .ok {n}
      | none => .error ()
  | [a, b] =>
      match (if a = "" then some 1 else pyInt a),
        (if b = "" then some maxFields else pyInt b) with
      | some sv, some ev => .ok (Finset.Icc sv ev)
      | _, _ => .error ()
  | _ => .error ()

/-- The comma loop of `parse_field_numbers`: empty items are skipped,
others accumulate into the selection set. -/
def parseItems (maxFields : ℕ) : List String → Except Unit (Finset ℕ)
  | [] => .ok ∅
  | f :: fs =>
      if f = "" then parseItems maxFields fs
      else
        match itemSetParts maxFields (strSplit f '-'), parseItems maxFields fs with
        | .ok s, .ok rest => .ok (s ∪ rest)
        | _, _ => .error ()

/-- Model of `parse_field_numbers(fields, maxFields)`. -/
def parseFieldNumbers (fields : String) (maxFields : ℕ) : Except Unit (Finset ℕ) :=
  parseItems maxFields (strSplit fields ',')

/-- C10.  `parse_field_numbers` never clamps to `[1, maxFields]`: written
bounds are kept verbatim (`parse_field_numbers("10", 3) = {10}`);
`maxFields` only replaces an omitted range end and `1` an omitted range
start; empty comma items are skipped; and `ValueError` arises exactly for
an item with more than one dash or a non-empty piece that is not a
decimal integer. -/
theorem parse_field_numbers_no_clamp (maxFields : ℕ) :
    parseFieldNumbers "10" 3 = .ok {10} ∧
    (∀ p n, pyInt p = some n → itemSetParts maxFields [p] = .ok {n}) ∧
    (∀ a b sv ev, pyInt a = some sv → pyInt b = some ev →
      itemSetParts maxFields [a, b] = .ok (Finset.Icc sv ev)) ∧
    (∀ b ev, pyInt b = some ev → itemSetParts maxFields ["", b] = .ok (Finset.Icc 1 ev)) ∧
    (∀ a sv, pyInt a = some sv →
      itemSetParts maxFields [a, ""] = .ok (Finset.Icc sv maxFields)) ∧
    (∀ parts : List String, 2 < parts.length → itemSetParts maxFields parts = .error ()) ∧
    (∀ p, p ≠ "" → (itemSetParts maxFields [p] = .error () ↔ pyInt p = none)) ∧
    (∀ a b, itemSetParts maxFields [a, b] = .error () ↔
      ((a ≠ "" ∧ pyInt a = none) ∨ (b ≠ "" ∧ pyInt b = none))) ∧
    (∀ items, parseItems maxFields ("" :: items) = parseItems maxFields items) ∧
    (∀ items, parseItems maxFields items = .error () ↔
      ∃ f ∈ items, f ≠ "" ∧ itemSetParts maxFields (strSplit f '-') = .error ()) := by
  have hempty : pyInt "" = none := rfl
  have hne : ∀ (x : String) (v : ℕ), pyInt x = some v → x ≠ "" := by
    intro x v hx he
    rw [he, hempty] at hx
    exact Option.noConfusion hx
  refine ⟨rfl, ?_, ?_, ?_, ?_, ?_, ?_, ?_, ?_, ?_⟩
  · intro p n h
    simp [itemSetParts, h]
  · intro a b sv ev ha hb
    simp [itemSetParts, ha, hb, hne a sv ha, hne b ev hb]
  · intro b ev hb
    simp [itemSetParts, hb, hne b ev hb]
  · intro a sv ha
    simp [itemSetParts, ha, hne a sv ha]
  · intro parts hlen
    match parts, hlen with
    | a :: b :: c :: rest, _ => rfl
  · intro p hp
    cases h : pyInt p <;> simp [itemSetParts, h]
  · intro a b
    by_cases ha : a = ""
    · subst ha
      by_cases hb : b = ""
      · subst hb
        simp [itemSetParts, hempty]
      · cases h : pyInt b <;> simp [itemSetParts, hb, h, hempty]
    · cases h : pyInt a
      · simp [itemSetParts, ha, h]
      · by_cases hb : b = ""
        · subst hb
          simp [itemSetParts, ha, h, hempty]
        · cases h2 : pyInt b <;> simp [itemSetParts, ha, hb, h, h2]
  · intro items
    simp [parseItems]
  · intro items
    induction items with
    | nil => simp [parseItems]
    | cons f fs ih =>
        by_cases hf : f = ""
        · subst hf
          simpa [parseItems] using ih
        · rcases h1 : itemSetParts maxFields (strSplit f '-') with e1 | s1
          · cases e1
            rcases h2 : parseItems maxFields fs with e2 | s2
            · cases e2
              simp only [parseItems, hf, if_false, h1, h2]
              simp [hf]
              exact Or.inl h1
            · simp only [parseItems, hf, if_false, h1, h2]
              simp [hf]
              exact Or.inl h1
          · rcases h2 : parseItems maxFields fs with e2 | s2
            · cases e2
              rw [h2] at ih
              simp only [true_iff] at ih
              simp only [parseItems, hf, if_false, h1, h2]
              simp only [List.mem_cons, true_iff]
              obtain ⟨g, hg, hgp⟩ := ih
              exact ⟨g, Or.inr hg, hgp⟩
            · rw [h2] at ih
              simp only [parseItems, hf, if_false, h1, h2]
              constructor
              · intro h
                exact Except.noConfusion h
              · rintro ⟨g, hg, hgne, hgerr⟩
                rcases List.mem_cons.mp hg with hgf | hgfs
                · subst hgf
                  rw [h1] at hgerr
                  exact Except.noConfusion hgerr
                · exact absurd (ih.mpr ⟨g, hgfs, hgne, hgerr⟩) (by simp)

/-! ### Corpus loading checks in `Aligner.__init__` (lines 825-847)

Each input file is abstracted to the list of its per-line column counts
(`line.count('\t') + 1`).  The loading loop asserts, per file, that every
line has the same column count as the file's first line, and that every
file has the same number of lines as the first file; each file's own
column count is added to the running language total.  There is no
cross-file comparison of column counts. -/

/-- Per-file column-consistency assertion. -/
def fileColumnsOk : List ℕ → Bool
  | [] => true
  | c :: rest => rest.all (· == c)

/-- Number of languages a file contributes (its first line's column
count; an empty file contributes none). -/
def fileLangs : List ℕ → ℕ
  | [] => 0
  | c :: _ => c

/-- The file loop of `Aligner.__init__`, threading the running language
total and the line count fixed by the first file.  Returns
`(nbLanguages, nbLines)`. -/
def loadCheckAux : List (List ℕ) → ℕ → Option ℕ → Except String (ℕ × ℕ)
  | [], acc, nbl => .ok (acc, nbl.getD 0)
  | f :: fs, acc, nbl =>
      if fileColumnsOk f then
        match nbl with
        | none => loadCheckAux fs (acc + fileLangs f) (some f.length)
        | some n =>
            if f.length = n then loadCheckAux fs (acc + fileLangs f) (some n)
            else .error "Input files have different number of lines"
      else .error "Found different number of columns"

/-- Model of the corpus-loading validation of `Aligner.__init__`. -/
def loadCheck (files : List (List ℕ)) : Except String (ℕ × ℕ) :=
  loadCheckAux files 0 none

/-- Sequencing of `Aligner.__init__`: sampling (the continuation `k`)
runs only after corpus loading succeeded. -/
def alignerInit {α : Type} (files : List (List ℕ)) (k : ℕ × ℕ → Except String α) :
    Except String α :=
  (loadCheck files).bind k

/-- C7 counterexample: two sources whose column counts differ from each
other (2 columns vs 1 column) load successfully — there is no cross-file
column-count check; the file contributes its own languages instead. -/
theorem load_check_cross_file_columns_accepted :
    loadCheck [[2, 2], [1, 1]] = .ok (3, 2) := rfl

theorem loadCheckAux_some_isOk (fs : List (List ℕ)) :
    ∀ acc n, (loadCheckAux fs acc (some n)).isOk = true ↔
      ∀ f ∈ fs, fileColumnsOk f = true ∧ f.length = n := by
  induction fs with
  | nil => intro acc n; simp [loadCheckAux, Except.isOk, Except.toBool]
  | cons f fs ih =>
      intro acc n
      by_cases hc : fileColumnsOk f
      · by_cases hl : f.length = n
        · simp [loadCheckAux, hc, hl, ih]
        · simp [loadCheckAux, hc, hl, Except.isOk, Except.toBool]
      · simp [loadCheckAux, hc, Except.isOk, Except.toBool]

/-- C7 amended.  Corpus loading succeeds iff every file's column count is
internally consistent and all files have the same line count; on a
malformed corpus the run aborts before sampling (`alignerInit` never
reaches its continuation). -/
theorem corpus_load_validation (files : List (List ℕ)) :
    ((loadCheck files).isOk = true ↔
      ((∀ f ∈ files, fileColumnsOk f = true) ∧
        ∀ f ∈ files, ∀ g ∈ files, f.length = g.length)) ∧
    (∀ err, loadCheck files = .error err →
      ∀ {α : Type} (k : ℕ × ℕ → Except String α), alignerInit files k = .error err) := by
  constructor
  · cases files with
    | nil => simp [loadCheck, loadCheckAux, Except.isOk, Except.toBool]
    | cons f fs =>
        by_cases hc : fileColumnsOk f
        · rw [show loadCheck (f :: fs) =
            loadCheckAux fs (0 + fileLangs f) (some f.length) by
              simp [loadCheck, loadCheckAux, hc]]
          rw [loadCheckAux_some_isOk]
          constructor
          · intro h
            refine ⟨?_, ?_⟩
            · intro g hg
              rcases List.mem_cons.mp hg with rfl | hg'
              · exact hc
              · exact (h g hg').1
            · intro a ha b hb
              have len : ∀ c ∈ f :: fs, c.length = f.length := by
                intro c hcm
                rcases List.mem_cons.mp hcm with rfl | hc'
                · rfl
                · exact (h c hc').2
              rw [len a ha, len b hb]
          · rintro ⟨hcols, hlens⟩
            intro g hg
            exact ⟨hcols g (by simp [hg]),
              hlens g (by simp [hg]) f (by simp)⟩
        · constructor
          · intro h
            exfalso
            rw [show loadCheck (f :: fs) =
              .error "Found different number of columns" by
                simp [loadCheck, loadCheckAux, hc]] at h
            simp [Except.isOk, Except.toBool] at h
          · rintro ⟨hcols, _⟩
            exact absurd (hcols f (by simp)) hc
  · intro err h α k
    show (loadCheck files).bind k = .error err
    rw [h]
    rfl

/-- C7 witness: a file with inconsistent columns aborts before sampling. -/
theorem corpus_load_validation_witness :
    alignerInit [[2, 1]] (fun p => Except.ok p) =
      .error "Found different number of columns" :=
  (corpus_load_validation [[2, 1]]).2 "Found different number of columns" rfl _

/-! ### The output loop of `set_proba` (lines 604-624)

The final emission loop (`for line in compressedFile: ... writer.write(...)`
followed by `writer.terminate()`) is wrapped in `try/except IOError: pass`.
The output channel is modelled by a predicate `accept` saying whether the
`i`-th write call succeeds; the records already written are the state the
exception leaves behind. -/

/-- Emission loop: `.ok` when every record is written, `.error` carrying
the partial output when a write raises `IOError`. -/
def writeAll (accept : ℕ → Bool) :
    ℕ → List String → List String → Except (List String) (List String)
  | _, written, [] => .ok written
  | i, written, r :: rs =>
      if accept i then writeAll accept (i + 1) (written ++ [r]) rs
      else .error written

/-- The `try/except IOError: pass` around the output loop of `set_proba`:
a failure stops emission and the function returns normally with the
partial output left as is. -/
def setProbaEmit (accept : ℕ → Bool) (records : List String) : List String :=
  match writeAll accept 0 [] records with
  | .ok w => w
  | .error w => w

theorem writeAll_spec (accept : ℕ → Bool) : ∀ (rs : List String) (i : ℕ) (w : List String),
    ((∀ j, j < rs.length → accept (i + j) = true) ∧
      writeAll accept i w rs = .ok (w ++ rs)) ∨
    (∃ k, k < rs.length ∧ (∀ j, j < k → accept (i + j) = true) ∧
      accept (i + k) = false ∧
      writeAll accept i w rs = .error (w ++ rs.take k)) := by
  intro rs
  induction rs with
  | nil =>
      intro i w
      left
      exact ⟨by intro j hj; simp at hj, by simp [writeAll]⟩
  | cons r rs ih =>
      intro i w
      by_cases hi : accept i
      · rcases ih (i + 1) (w ++ [r]) with ⟨hall, heq⟩ | ⟨k, hk, hja, hkf, heq⟩
        · left
          refine ⟨?_, ?_⟩
          · intro j hj
            cases j with
            | zero => simpa using hi
            | succ j' =>
                have := hall j' (by simpa using hj)
                rw [show i + (j' + 1) = i + 1 + j' by omega]
                exact this
          · rw [writeAll, if_pos hi, heq]
            simp
        · right
          refine ⟨k + 1, by simpa using hk, ?_, ?_, ?_⟩
          · intro j hj
            cases j with
            | zero => simpa using hi
            | succ j' =>
                have := hja j' (by omega)
                rw [show i + (j' + 1) = i + 1 + j' by omega]
                exact this
          · rw [show i + (k + 1) = i + 1 + k by omega]
            exact hkf
          · rw [writeAll, if_pos hi, heq]
            simp
      · right
        exact ⟨0, by simp, by omega, by simpa using hi, by simp [writeAll, hi]⟩

/-- C8.  If the `i`-th write fails (`accept i = false`, an `IOError` from
the downstream writer), `set_proba`'s output loop stops there and returns
normally: the emitted output is exactly the prefix of records whose
writes all succeeded. -/
theorem set_proba_write_failure (accept : ℕ → Bool) (records : List String) :
    ∃ k, k ≤ records.length ∧
      setProbaEmit accept records = records.take k ∧
      (∀ i, i < k → accept i = true) ∧
      (k = records.length ∨ accept k = false) := by
  rcases writeAll_spec accept records 0 [] with ⟨hall, heq⟩ | ⟨k, hk, hja, hkf, heq⟩
  · refine ⟨records.length, le_refl _, ?_, ?_, Or.inl rfl⟩
    · rw [setProbaEmit, heq]
      simp
    · intro i hi
      simpa using hall i hi
  · refine ⟨k, by omega, ?_, ?_, Or.inr (by simpa using hkf)⟩
    · rw [setProbaEmit, heq]
      simp
    · intro i hi
      simpa using hja i hi

/-! ### Candidate filtering in `Aligner.align` (lines 1179-1233)

For one line of one co-occurrence group, `align` partitions the line's
word positions into the `perfect` (word in the group's unit set) and
`context` position lists per language, then, for each candidate,
empties each language's phrase that fails the contiguity check
(`phrase[-1] - phrase[0] != len(phrase) - 1` when the language requires
contiguity) or the length check (`minSize <= len(phrase) <= maxSize`),
and drops the candidate when fewer than `minLanguages` languages keep a
non-empty phrase.  Word-position lengths are counted here, before any
delimiter insertion. -/

structure AlignConfig where
  minLanguages : ℕ
  minSize : ℕ
  maxSize : ℕ
  contiguousFields : List Bool

/-- In-place list update (`candidate[languageId] = ...`). -/
def lmodify {α : Type} : List α → ℕ → (α → α) → List α
  | [], _, _ => []
  | a :: as, 0, g => g a :: as
  | a :: as, i + 1, g => a :: lmodify as i g

/-- The `for wordPos, word in enumerate(words)` loop building the
`perfect` and `context` position lists per language. -/
def splitGo (wl : ℕ → ℕ) (inSet : ℕ → Bool) :
    ℕ → List ℕ → List (List ℕ) × List (List ℕ) → List (List ℕ) × List (List ℕ)
  | _, [], pc => pc
  | p, w :: ws, pc =>
      splitGo wl inSet (p + 1) ws
        (if inSet w then (lmodify pc.1 (wl w) (fun l => l ++ [p]), pc.2)
         else (pc.1, lmodify pc.2 (wl w) (fun l => l ++ [p])))

/-- Partition of a line's word positions into perfect/context per
language; `wl` is `self.wordLanguages`, `inSet` the group's word set. -/
def splitLine (wl : ℕ → ℕ) (nbLang : ℕ) (inSet : ℕ → Bool) (words : List ℕ) :
    List (List ℕ) × List (List ℕ) :=
  splitGo wl inSet 0 words (List.replicate nbLang [], List.replicate nbLang [])

/-- The contiguity test `phrase[-1] - phrase[0] == len(phrase) - 1`
(vacuously true on the empty list, which the caller guards against). -/
def contigOk : List ℕ → Bool
  | [] => true
  | p :: ps => ((ps.getLastD p : ℤ) - (p : ℤ)) == (ps.length : ℤ)

/-- Per-language filtering step of one candidate phrase. -/
def checkPhrase (cfg : AlignConfig) (l : ℕ) (ph : List ℕ) : List ℕ :=
  if cfg.contiguousFields.getD l false = true ∧ ph ≠ [] ∧ contigOk ph = false then []
  else if cfg.minSize ≤ ph.length ∧ ph.length ≤ cfg.maxSize then ph
  else []

/-- Number of languages with a surviving non-empty phrase. -/
def nbNonEmpty (cand : List (List ℕ)) : ℕ :=
  cand.countP (fun ph => !ph.isEmpty)

/-- Filtering of one candidate (`perfect` or `context`): languages are
filtered in place, then the candidate is kept only if enough languages
survive. -/
def filterCandidate (cfg : AlignConfig) (cand : List (List ℕ)) :
    Option (List (List ℕ)) :=
  let filtered := cand.enum.map (fun lp => checkPhrase cfg lp.1 lp.2)
  if cfg.minLanguages ≤ nbNonEmpty filtered then some filtered else none

/-- The candidates `align` emits for one line of one group: the filtered
`perfect` and `context` partitions that pass the language-count check. -/
def alignEmitted (cfg : AlignConfig) (wl : ℕ → ℕ) (inSet : ℕ → Bool)
    (words : List ℕ) : List (List (List ℕ)) :=
  [(splitLine wl cfg.contiguousFields.length inSet words).1,
   (splitLine wl cfg.contiguousFields.length inSet words).2].filterMap
    (filterCandidate cfg)

/-- Position lists that are strictly increasing with all entries below a
bound. -/
def goodLists (p : ℕ) (ll : List (List ℕ)) : Prop :=
  ∀ l ∈ ll, l.Pairwise (· < ·) ∧ ∀ x ∈ l, x < p

theorem lmodify_mem {α : Type} (ll : List α) (i : ℕ) (g : α → α) (l' : α)
    (h : l' ∈ lmodify ll i g) : l' ∈ ll ∨ ∃ l ∈ ll, l' = g l := by
  induction ll generalizing i with
  | nil => simp [lmodify] at h
  | cons a as ih =>
      cases i with
      | zero =>
          rcases List.mem_cons.mp h with rfl | h'
          · exact Or.inr ⟨a, by simp⟩
          · exact Or.inl (by simp [h'])
      | succ i' =>
          rcases List.mem_cons.mp h with rfl | h'
          · exact Or.inl (by simp)
          · rcases ih i' h' with h2 | ⟨l, hl, rfl⟩
            · exact Or.inl (by simp [h2])
            · exact Or.inr ⟨l, by simp [hl]⟩

theorem goodLists_lmodify (p : ℕ) (ll : List (List ℕ)) (i : ℕ)
    (h : goodLists p ll) :
    goodLists (p + 1) (lmodify ll i (fun l => l ++ [p])) := by
  intro l' hl'
  rcases lmodify_mem ll i _ l' hl' with h2 | ⟨l, hl, rfl⟩
  · obtain ⟨hp, hb⟩ := h l' h2
    exact ⟨hp, fun x hx => by have := hb x hx; omega⟩
  · obtain ⟨hp, hb⟩ := h l hl
    refine ⟨?_, ?_⟩
    · rw [List.pairwise_append]
      exact ⟨hp, by simp, fun x hx y hy => by
        rw [List.mem_singleton] at hy
        subst hy
        exact hb x hx⟩
    · intro x hx
      rcases List.mem_append.mp hx with hx | hx
      · have := hb x hx; omega
      · rw [List.mem_singleton] at hx; omega

theorem goodLists_mono (p : ℕ) (ll : List (List ℕ)) (h : goodLists p ll) :
    goodLists (p + 1) ll :=
  fun l hl => ⟨(h l hl).1, fun x hx => by have := (h l hl).2 x hx; omega⟩

theorem splitGo_good (wl : ℕ → ℕ) (inSet : ℕ → Bool) :
    ∀ (ws : List ℕ) (p : ℕ) (pc : List (List ℕ) × List (List ℕ)),
      goodLists p pc.1 → goodLists p pc.2 →
      goodLists (p + ws.length) (splitGo wl inSet p ws pc).1 ∧
        goodLists (p + ws.length) (splitGo wl inSet p ws pc).2 := by
  intro ws
  induction ws with
  | nil => intro p pc h1 h2; simpa [splitGo] using ⟨h1, h2⟩
  | cons w ws ih =>
      intro p pc h1 h2
      rw [splitGo]
      by_cases hw : inSet w
      · have := ih (p + 1) (lmodify pc.1 (wl w) (fun l => l ++ [p]), pc.2)
          (goodLists_lmodify p pc.1 (wl w) h1) (goodLists_mono p pc.2 h2)
        simpa [hw, Nat.add_assoc, Nat.add_comm 1 ws.length] using this
      · have := ih (p + 1) (pc.1, lmodify pc.2 (wl w) (fun l => l ++ [p]))
          (goodLists_mono p pc.1 h1) (goodLists_lmodify p pc.2 (wl w) h2)
        simpa [hw, Nat.add_assoc, Nat.add_comm 1 ws.length] using this

theorem splitLine_good (wl : ℕ → ℕ) (nbLang : ℕ) (inSet : ℕ → Bool)
    (words : List ℕ) :
    goodLists words.length (splitLine wl nbLang inSet words).1 ∧
      goodLists words.length (splitLine wl nbLang inSet words).2 := by
  have h0 : goodLists 0 (List.replicate nbLang ([] : List ℕ)) := by
    intro l hl
    rw [List.eq_of_mem_replicate hl]
    simp
  have := splitGo_good wl inSet words 0
    (List.replicate nbLang [], List.replicate nbLang []) h0 h0
  simpa [splitLine] using this

theorem checkPhrase_ne_nil (cfg : AlignConfig) (l : ℕ) (ph : List ℕ)
    (h : checkPhrase cfg l ph ≠ []) :
    checkPhrase cfg l ph = ph ∧ cfg.minSize ≤ ph.length ∧
      ph.length ≤ cfg.maxSize ∧
      (cfg.contiguousFields.getD l false = true → contigOk ph = true) := by
  rw [checkPhrase] at h ⊢
  split_ifs at h ⊢ with h1 h2
  · exact absurd rfl h
  · refine ⟨rfl, h2.1, h2.2, ?_⟩
    intro hf
    by_contra hc
    have hph : ph ≠ [] := fun he => h (by rw [he])
    exact h1 ⟨hf, hph, by simpa using hc⟩
  · exact absurd rfl h

theorem pairwise_lt_getLastD_ge :
    ∀ (ps : List ℕ) (q : ℕ), (q :: ps).Pairwise (· < ·) →
      (q : ℤ) + ps.length ≤ (ps.getLastD q : ℤ) := by
  intro ps
  induction ps with
  | nil => intro q _; simp [List.getLastD]
  | cons a ps ih =>
      intro q hp
      have hqa : q < a := (List.pairwise_cons.mp hp).1 a (by simp)
      have hps : (a :: ps).Pairwise (· < ·) := (List.pairwise_cons.mp hp).2
      have := ih a hps
      rw [List.getLastD_cons]
      simp only [List.length_cons]
      push_cast
      push_cast at this
      omega

/-- A strictly increasing position list whose span equals its length is a
contiguous run. -/
theorem contig_sorted_eq_range :
    ∀ (ps : List ℕ) (p : ℕ), (p :: ps).Pairwise (· < ·) →
      (ps.getLastD p : ℤ) - (p : ℤ) = (ps.length : ℤ) →
      p :: ps = List.range' p (ps.length + 1) := by
  intro ps
  induction ps with
  | nil => intro p _ _; rfl
  | cons q ps ih =>
      intro p hp hspan
      have hpq : p < q := (List.pairwise_cons.mp hp).1 q (by simp)
      have hqs : (q :: ps).Pairwise (· < ·) := (List.pairwise_cons.mp hp).2
      rw [List.getLastD_cons] at hspan
      have hlow := pairwise_lt_getLastD_ge ps q hqs
      have hq : q = p + 1 := by
        simp only [List.length_cons] at hspan
        push_cast at hspan hlow ⊢
        omega
      have hspan' : (ps.getLastD q : ℤ) - (q : ℤ) = (ps.length : ℤ) := by
        simp only [List.length_cons] at hspan
        push_cast at hspan ⊢
        omega
      have := ih q hqs hspan'
      rw [List.length_cons, List.range'_succ, ← hq, ← this]

/-- C1.  Every candidate emitted by the extraction filter of
`Aligner.align` has, per language, a retained phrase that is either empty
or of length in `[minSize, maxSize]` (counted on word positions, before
delimiter insertion); at least `minLanguages` languages keep a non-empty
phrase; and every language whose `contiguousFields` flag is set keeps a
contiguous run of source-line positions.  Nothing failing a filter is
emitted. -/
theorem align_candidate_filters (cfg : AlignConfig) (wl : ℕ → ℕ) (inSet : ℕ → Bool)
    (words : List ℕ) (out : List (List ℕ))
    (hout : out ∈ alignEmitted cfg wl inSet words) :
    cfg.minLanguages ≤ nbNonEmpty out ∧
    (∀ ph ∈ out, ph ≠ [] → cfg.minSize ≤ ph.length ∧ ph.length ≤ cfg.maxSize) ∧
    (∀ l, ∀ hl : l < out.length, cfg.contiguousFields.getD l false = true →
      out[l] ≠ [] → ∃ a, out[l] = List.range' a (out[l].length)) := by
  rw [alignEmitted] at hout
  obtain ⟨cand, hcand, hfc⟩ := List.mem_filterMap.mp hout
  have hgood : ∀ ph ∈ cand, ph.Pairwise (· < ·) := by
    have hsg := splitLine_good wl cfg.contiguousFields.length inSet words
    rcases List.mem_cons.mp hcand with rfl | hcand'
    · exact fun ph hph => (hsg.1 ph hph).1
    · rcases List.mem_cons.mp hcand' with rfl | h
      · exact fun ph hph => (hsg.2 ph hph).1
      · simp at h
  rw [filterCandidate] at hfc
  split_ifs at hfc with hmin
  · injection hfc with hfc
    subst hfc
    refine ⟨hmin, ?_, ?_⟩
    · intro ph hph hne
      obtain ⟨lp, _, hlp⟩ := List.mem_map.mp hph
      rw [← hlp] at hne ⊢
      obtain ⟨heq, h1, h2, _⟩ := checkPhrase_ne_nil cfg lp.1 lp.2 hne
      rw [heq]
      exact ⟨h1, h2⟩
    · intro l hl hflag hne
      have hlc : l < cand.length := by
        simpa using hl
      have hget : getElem (cand.enum.map (fun lp => checkPhrase cfg lp.1 lp.2)) l hl =
          checkPhrase cfg l (getElem cand l hlc) := by
        rw [List.getElem_map]
        congr 1 <;> simp [List.getElem_enum]
      rw [hget] at hne ⊢
      obtain ⟨heq, _, _, hcg⟩ := checkPhrase_ne_nil cfg l (getElem cand l hlc) hne
      rw [heq] at hne ⊢
      have hpw : (getElem cand l hlc).Pairwise (· < ·) :=
        hgood _ (List.getElem_mem hlc)
      have hok := hcg hflag
      cases hcl : getElem cand l hlc with
      | nil => exact absurd hcl hne
      | cons p ps =>
          rw [hcl] at hpw hok
          simp only [contigOk] at hok
          have hspan : (ps.getLastD p : ℤ) - (p : ℤ) = (ps.length : ℤ) :=
            eq_of_beq hok
          exact ⟨p, by
            simp only [List.length_cons]
            exact contig_sorted_eq_range ps p hpw hspan⟩

/-- C1 witness: one concrete line (two languages of two words each, all
words in the group set) passes the filters. -/
theorem align_candidate_filters_witness :
    2 ≤ nbNonEmpty [[0, 1], [2, 3]] ∧
    (∀ ph ∈ [[0, 1], [2, 3]], ph ≠ [] → 1 ≤ ph.length ∧ ph.length ≤ 7) ∧
    (∀ l, ∀ hl : l < ([[0, 1], [2, 3]] : List (List ℕ)).length,
      ([true, true] : List Bool).getD l false = true →
      ([[0, 1], [2, 3]] : List (List ℕ))[l] ≠ [] →
      ∃ a, ([[0, 1], [2, 3]] : List (List ℕ))[l] =
        List.range' a (([[0, 1], [2, 3]] : List (List ℕ))[l].length)) :=
  align_candidate_filters ⟨2, 1, 7, [true, true]⟩
    (fun w => if w < 2 then 0 else 1) (fun _ => true) [0, 1, 2, 3]
    [[0, 1], [2, 3]] (by decide)

/-! ### Frequency accumulation (`Aligner.align` lines 1219-1233 and
`merge` lines 669-681)

`align` renders each surviving candidate as a tab-joined string
`alString` and hashes it; the nested dictionary
`self.counts[len(alString)][hash(alString)]` is modelled by one
association list keyed by the pair `(length, hash)`, and the append-only
record file by a list.  A fresh key stores the weight, writes the record
once and bumps the alignment counter; a seen key only adds the weight.
`merge` runs the identical update on pre-parsed alignment lines. -/

/-- One emission event: rendered alignment string, the record written on
first sight (hex word ids for `align`, the `alignment_lw` line for
`merge`), and the extraction weight. -/
structure AlignEvent (ρ : Type) where
  alString : String
  record : ρ
  weight : ℕ

/-- Bucket key `(len(alString), hash(alString))`. -/
def keyOf (h : String → ℤ) (s : String) : ℕ × ℤ := (s.length, h s)

structure AlignState (ρ : Type) where
  counts : List ((ℕ × ℤ) × ℕ)
  store : List ρ
  nbAlignments : ℕ

/-- The per-candidate frequency update of `Aligner.align` / `merge`. -/
def alignStep {ρ : Type} (h : String → ℤ) (st : AlignState ρ) (e : AlignEvent ρ) :
    AlignState ρ :=
  match alookup st.counts (keyOf h e.alString) with
  | none =>
      ⟨aset st.counts (keyOf h e.alString) e.weight,
        st.store ++ [e.record], st.nbAlignments + 1⟩
  | some f =>
      ⟨aset st.counts (keyOf h e.alString) (f + e.weight), st.store,
        st.nbAlignments⟩

/-- All events of a run, starting from the empty store. -/
def alignRun {ρ : Type} (h : String → ℤ) (events : List (AlignEvent ρ)) :
    AlignState ρ :=
  events.foldl (alignStep h) ⟨[], [], 0⟩

/-- Specification-side description of the record store: the record of the
first event of each distinct key, in order of first appearance, given the
keys already seen. -/
def firstRecords {ρ : Type} (h : String → ℤ) (seen : List (ℕ × ℤ)) :
    List (AlignEvent ρ) → List ρ
  | [] => []
  | e :: es =>
      if keyOf h e.alString ∈ seen then firstRecords h seen es
      else e.record :: firstRecords h (keyOf h e.alString :: seen) es

theorem firstRecords_congr {ρ : Type} (h : String → ℤ)
    (es : List (AlignEvent ρ)) : ∀ (s1 s2 : List (ℕ × ℤ)),
    (∀ k, k ∈ s1 ↔ k ∈ s2) → firstRecords h s1 es = firstRecords h s2 es := by
  induction es with
  | nil => intro s1 s2 _; rfl
  | cons e es ih =>
      intro s1 s2 hiff
      by_cases hm : keyOf h e.alString ∈ s1
      · rw [firstRecords, if_pos hm, firstRecords, if_pos ((hiff _).mp hm), ih s1 s2 hiff]
      · rw [firstRecords, if_neg hm, firstRecords, if_neg (fun c => hm ((hiff _).mpr c))]
        exact congrArg (List.cons e.record)
          (ih (keyOf h e.alString :: s1) (keyOf h e.alString :: s2)
            (fun k => by simp [hiff k]))

theorem alignRun_counts {ρ : Type} (h : String → ℤ) :
    ∀ (events : List (AlignEvent ρ)) (st : AlignState ρ) (k : ℕ × ℤ),
      alookup ((events.foldl (alignStep h) st).counts) k =
        match alookup st.counts k with
        | some f => some (f + ((events.filter (fun e => keyOf h e.alString = k)).map
            (fun e => e.weight)).sum)
        | none =>
            if events.any (fun e => keyOf h e.alString = k) then
              some (((events.filter (fun e => keyOf h e.alString = k)).map
                (fun e => e.weight)).sum)
            else none := by
  intro events
  induction events with
  | nil =>
      intro st k
      cases hl : alookup st.counts k <;> simp [hl]
  | cons e es ih =>
      intro st k
      rw [List.foldl_cons, ih]
      by_cases hk : keyOf h e.alString = k
      · subst hk
        rcases hl : alookup st.counts (keyOf h e.alString) with _ | f
        · simp [alignStep, hl, alookup_aset]
        · simp [alignStep, hl, alookup_aset, Nat.add_assoc]
      · have hne : k ≠ keyOf h e.alString := fun c => hk c.symm
        rcases hl : alookup st.counts (keyOf h e.alString) with _ | f <;>
          rcases hl2 : alookup st.counts k with _ | g <;>
            simp [alignStep, hl, hl2, alookup_aset, hne, hk]

theorem alignRun_store_nb {ρ : Type} (h : String → ℤ) :
    ∀ (events : List (AlignEvent ρ)) (st : AlignState ρ),
      (events.foldl (alignStep h) st).store =
        st.store ++ firstRecords h (st.counts.map Prod.fst) events ∧
      (events.foldl (alignStep h) st).nbAlignments =
        st.nbAlignments + (firstRecords h (st.counts.map Prod.fst) events).length := by
  intro events
  induction events with
  | nil => intro st; simp [firstRecords]
  | cons e es ih =>
      intro st
      rw [List.foldl_cons]
      rcases hl : alookup st.counts (keyOf h e.alString) with _ | f
      · have hnm : keyOf h e.alString ∉ st.counts.map Prod.fst :=
          (alookup_eq_none_iff _ _).mp hl
        have hkeys : (aset st.counts (keyOf h e.alString) e.weight).map Prod.fst =
            st.counts.map Prod.fst ++ [keyOf h e.alString] :=
          aset_map_fst_of_not_mem _ _ _ hnm
        obtain ⟨ihs, ihn⟩ := ih ⟨aset st.counts (keyOf h e.alString) e.weight,
          st.store ++ [e.record], st.nbAlignments + 1⟩
        have hcongr : firstRecords h ((aset st.counts (keyOf h e.alString)
            e.weight).map Prod.fst) es =
            firstRecords h (keyOf h e.alString :: st.counts.map Prod.fst) es := by
          apply firstRecords_congr
          intro k
          rw [hkeys]
          simp
          tauto
        constructor
        · rw [show alignStep h st e = ⟨aset st.counts (keyOf h e.alString) e.weight,
            st.store ++ [e.record], st.nbAlignments + 1⟩ by rw [alignStep, hl]]
          rw [ihs, hcongr, firstRecords, if_neg hnm]
          simp
        · rw [show alignStep h st e = ⟨aset st.counts (keyOf h e.alString) e.weight,
            st.store ++ [e.record], st.nbAlignments + 1⟩ by rw [alignStep, hl]]
          rw [ihn, hcongr, firstRecords, if_neg hnm]
          simp
          omega
      · have hm : keyOf h e.alString ∈ st.counts.map Prod.fst := by
          by_contra hc
          rw [(alookup_eq_none_iff _ _).mpr hc] at hl
          exact Option.noConfusion hl
        have hkeys : (aset st.counts (keyOf h e.alString) (f + e.weight)).map Prod.fst =
            st.counts.map Prod.fst :=
          aset_map_fst_of_mem _ _ _ hm
        obtain ⟨ihs, ihn⟩ := ih ⟨aset st.counts (keyOf h e.alString) (f + e.weight),
          st.store, st.nbAlignments⟩
        constructor
        · rw [show alignStep h st e = ⟨aset st.counts (keyOf h e.alString) (f + e.weight),
            st.store, st.nbAlignments⟩ by rw [alignStep, hl]]
          rw [ihs, hkeys, firstRecords, if_pos hm]
        · rw [show alignStep h st e = ⟨aset st.counts (keyOf h e.alString) (f + e.weight),
            st.store, st.nbAlignments⟩ by rw [alignStep, hl]]
          rw [ihn, hkeys, firstRecords, if_pos hm]

/-- C2.  Frequency conservation: after a run, the frequency stored for a
bucket key (rendered-string length, content hash) is exactly the sum of
the extraction weights of all emission events hashing to it; the record
store holds exactly the first event's record per distinct key, in order
of first appearance; and the running alignment count equals the number of
records written. -/
theorem align_frequency_conservation {ρ : Type} (h : String → ℤ)
    (events : List (AlignEvent ρ)) (k : ℕ × ℤ) :
    alookup (alignRun h events).counts k =
      (if events.any (fun e => keyOf h e.alString = k) then
        some (((events.filter (fun e => keyOf h e.alString = k)).map
          (fun e => e.weight)).sum)
       else none) ∧
    (alignRun h events).store = firstRecords h [] events ∧
    (alignRun h events).nbAlignments = (alignRun h events).store.length := by
  obtain ⟨hs, hn⟩ := alignRun_store_nb h events ⟨[], [], 0⟩
  refine ⟨?_, ?_, ?_⟩
  · have := alignRun_counts h events ⟨[], [], 0⟩ k
    simpa [alignRun, alookup] using this
  · simpa [alignRun] using hs
  · simp only [alignRun]
    rw [hn, hs]
    simp

/-! ### Record ordering in `set_proba` (lines 549-582, 604-621)

Pass 1 groups record offsets by frequency (`offsetsByFreq`), offsets per
frequency in input order; the dump loop iterates
`sorted(offsetsByFreq.iterkeys(), reverse=True)` and re-reads each
frequency's records in recorded order; passes 2-3 preserve that order.
Records are abstracted to (alignment string, lexical-weight field,
frequency), the frequency being the `inputDict` lookup result. -/

structure ALRecord where
  al : String
  lw : String
  freq : ℕ
deriving DecidableEq

/-- Descending insertion into a sorted list (models `sorted(keys,
reverse=True)`; applied only to duplicate-free key lists). -/
def insertDesc (x : ℕ) : List ℕ → List ℕ
  | [] => [x]
  | y :: ys => if y ≤ x then x :: y :: ys else y :: insertDesc x ys

/-- Descending sort. -/
def sortDesc (l : List ℕ) : List ℕ := l.foldr insertDesc []

/-- The distinct frequencies of a record list, largest first (the
iteration order of the dump loop over `offsetsByFreq`). -/
def distinctFreqsDesc (records : List ALRecord) : List ℕ :=
  sortDesc ((records.map (fun r => r.freq)).dedup)

/-- The order in which `set_proba` hands records to the writer:
descending frequency blocks, each block in original input order. -/
def setProbaOrder (records : List ALRecord) : List ALRecord :=
  (distinctFreqsDesc records).flatMap (fun f => records.filter (fun r => r.freq = f))

theorem insertDesc_perm (x : ℕ) (l : List ℕ) : (insertDesc x l).Perm (x :: l) := by
  induction l with
  | nil => simp [insertDesc]
  | cons y ys ih =>
      by_cases hx : y ≤ x
      · simp [insertDesc, hx]
      · rw [insertDesc, if_neg hx]
        exact (ih.cons y).trans (List.Perm.swap x y ys)

theorem sortDesc_perm (l : List ℕ) : (sortDesc l).Perm l := by
  induction l with
  | nil => simp [sortDesc]
  | cons y ys ih =>
      rw [sortDesc, List.foldr_cons]
      exact (insertDesc_perm y _).trans (ih.cons y)

theorem insertDesc_sorted (x : ℕ) (l : List ℕ) (h : l.Pairwise (· ≥ ·)) :
    (insertDesc x l).Pairwise (· ≥ ·) := by
  induction l with
  | nil => simp [insertDesc]
  | cons y ys ih =>
      by_cases hx : y ≤ x
      · rw [insertDesc, if_pos hx]
        refine List.pairwise_cons.mpr ⟨?_, h⟩
        intro b hb
        rcases List.mem_cons.mp hb with rfl | hb'
        · exact hx
        · exact le_trans ((List.pairwise_cons.mp h).1 b hb') hx
      · rw [insertDesc, if_neg hx]
        refine List.pairwise_cons.mpr ⟨?_, ih (List.pairwise_cons.mp h).2⟩
        intro b hb
        rcases (insertDesc_perm x ys).mem_iff.mp hb with h2
        rcases List.mem_cons.mp h2 with rfl | hb'
        · omega
        · exact (List.pairwise_cons.mp h).1 b hb'

theorem sortDesc_sorted (l : List ℕ) : (sortDesc l).Pairwise (· ≥ ·) := by
  induction l with
  | nil => simp [sortDesc]
  | cons y ys ih => exact insertDesc_sorted y (sortDesc ys) ih

theorem distinctFreqsDesc_nodup (records : List ALRecord) :
    (distinctFreqsDesc records).Nodup :=
  (sortDesc_perm _).nodup_iff.mpr (List.nodup_dedup _)

theorem distinctFreqsDesc_mem (records : List ALRecord) (f : ℕ) :
    f ∈ distinctFreqsDesc records ↔ ∃ r ∈ records, r.freq = f := by
  rw [distinctFreqsDesc, (sortDesc_perm _).mem_iff, List.mem_dedup, List.mem_map]

theorem distinctFreqsDesc_strict (records : List ALRecord) :
    (distinctFreqsDesc records).Pairwise (· > ·) :=
  ((sortDesc_sorted _).and (distinctFreqsDesc_nodup records)).imp
    (fun hab => lt_of_le_of_ne hab.1 (Ne.symm hab.2))

theorem flatMap_congr_fun {α β : Type} (l : List α) (f g : α → List β)
    (h : ∀ a ∈ l, f a = g a) : l.flatMap f = l.flatMap g := by
  induction l with
  | nil => rfl
  | cons a as ih =>
      rw [List.flatMap_cons, List.flatMap_cons, h a (by simp),
        ih (fun b hb => h b (by simp [hb]))]

theorem bind_filter_perm :
    ∀ (fs : List ℕ) (records : List ALRecord), fs.Nodup →
      (∀ r ∈ records, r.freq ∈ fs) →
      (fs.flatMap (fun f => records.filter (fun r => r.freq = f))).Perm records := by
  intro fs
  induction fs with
  | nil =>
      intro records _ hall
      have hrec : records = [] :=
        List.eq_nil_iff_forall_not_mem.mpr (fun r hr => by simpa using hall r hr)
      subst hrec
      simp
  | cons f fs ih =>
      intro records hnd hall
      have hnf : f ∉ fs := (List.nodup_cons.mp hnd).1
      have hstep : ∀ f' ∈ fs, records.filter (fun r => r.freq = f') =
          (records.filter (fun r => ¬ r.freq = f)).filter (fun r => r.freq = f') := by
        intro f' hf'
        have hff : f' ≠ f := fun c => hnf (by rw [← c]; exact hf')
        rw [List.filter_filter]
        apply List.filter_congr
        intro r _
        by_cases hr : r.freq = f'
        · simp [hr, hff]
        · simp [hr]
      rw [List.flatMap_cons,
        flatMap_congr_fun fs _ _ hstep]
      have hrest := ih (records.filter (fun r => ¬ r.freq = f))
        (List.nodup_cons.mp hnd).2
        (by
          intro r hr
          rw [List.mem_filter] at hr
          have := hall r hr.1
          rcases List.mem_cons.mp this with hc | hc
          · exact absurd hc (by simpa using hr.2)
          · exact hc)
      refine (List.Perm.append_left _ hrest).trans ?_
      have := List.filter_append_perm (fun r => r.freq = f) records
      simpa using this

theorem bind_filter_stable (records : List ALRecord) :
    ∀ (fs : List ℕ), fs.Nodup → ∀ f : ℕ,
      ((fs.flatMap (fun f' => records.filter (fun r => r.freq = f'))).filter
        (fun r => r.freq = f)) =
      if f ∈ fs then records.filter (fun r => r.freq = f) else [] := by
  intro fs
  induction fs with
  | nil => intro _ f; simp
  | cons f' fs ih =>
      intro hnd f
      rw [List.flatMap_cons, List.filter_append,
        ih (List.nodup_cons.mp hnd).2 f]
      by_cases hf : f' = f
      · subst hf
        have hnf : f' ∉ fs := (List.nodup_cons.mp hnd).1
        rw [if_neg hnf, if_pos (by simp)]
        rw [List.filter_filter]
        have : (records.filter fun r => decide (r.freq = f') && decide (r.freq = f')) =
            records.filter (fun r => r.freq = f') := by
          apply List.filter_congr
          intro r _
          by_cases hr : r.freq = f' <;> simp [hr]
        rw [this, List.append_nil]
      · have h1 : ((records.filter (fun r => r.freq = f')).filter
            (fun r => r.freq = f)) = [] := by
          rw [List.filter_filter]
          apply List.eq_nil_iff_forall_not_mem.mpr
          intro r hr
          rw [List.mem_filter] at hr
          have := hr.2
          simp at this
          exact hf (by rw [← this.2, this.1])
        rw [h1, List.nil_append]
        have : (f ∈ f' :: fs) ↔ (f ∈ fs) := by
          simp [List.mem_cons]
          intro hc
          exact absurd hc.symm hf
        by_cases hm : f ∈ fs
        · rw [if_pos hm, if_pos (this.mpr hm)]
        · rw [if_neg hm, if_neg (fun c => hm (this.mp c))]

theorem bind_filter_pairwise (records : List ALRecord) :
    ∀ (fs : List ℕ), fs.Pairwise (· > ·) →
      (fs.flatMap (fun f => records.filter (fun r => r.freq = f))).Pairwise
        (fun a b => b.freq ≤ a.freq) := by
  have hconst : ∀ (l : List ALRecord) (f : ℕ), (∀ x ∈ l, x.freq = f) →
      l.Pairwise (fun a b => b.freq ≤ a.freq) := by
    intro l f hl
    induction l with
    | nil => simp
    | cons a as ih =>
        refine List.pairwise_cons.mpr ⟨?_, ih (fun x hx => hl x (by simp [hx]))⟩
        intro b hb
        rw [hl a (by simp), hl b (by simp [hb])]
  intro fs
  induction fs with
  | nil => intro _; simp
  | cons f fs ih =>
      intro hp
      rw [List.flatMap_cons]
      rw [List.pairwise_append]
      refine ⟨?_, ih (List.pairwise_cons.mp hp).2, ?_⟩
      · exact hconst _ f (fun x hx => by
          have := (List.mem_filter.mp hx).2
          simpa using this)
      · intro a ha b hb
        have haf : a.freq = f := by
          have := (List.mem_filter.mp ha).2
          simpa using this
        obtain ⟨f', hf', hbf⟩ := List.mem_flatMap.mp hb
        have hbf' : b.freq = f' := by
          have := (List.mem_filter.mp hbf).2
          simpa using this
        have : f > f' := (List.pairwise_cons.mp hp).1 f' hf'
        omega

/-- C3.  The records `set_proba` hands to the writer are a permutation of
the input records, sorted by non-increasing frequency, and within each
frequency the original input order is preserved. -/
theorem set_proba_output_order (records : List ALRecord) :
    (setProbaOrder records).Perm records ∧
    (setProbaOrder records).Pairwise (fun a b => b.freq ≤ a.freq) ∧
    ∀ f, (setProbaOrder records).filter (fun r => r.freq = f) =
      records.filter (fun r => r.freq = f) := by
  refine ⟨?_, ?_, ?_⟩
  · exact bind_filter_perm (distinctFreqsDesc records) records
      (distinctFreqsDesc_nodup records)
      (fun r hr => (distinctFreqsDesc_mem records r.freq).mpr ⟨r, hr, rfl⟩)
  · exact bind_filter_pairwise records _ (distinctFreqsDesc_strict records)
  · intro f
    rw [setProbaOrder, bind_filter_stable records _ (distinctFreqsDesc_nodup records) f]
    by_cases hm : f ∈ distinctFreqsDesc records
    · rw [if_pos hm]
    · rw [if_neg hm]
      symm
      apply List.eq_nil_iff_forall_not_mem.mpr
      intro r hr
      rw [List.mem_filter] at hr
      exact hm ((distinctFreqsDesc_mem records f).mpr
        ⟨r, hr.1, by simpa using hr.2⟩)

/-! ### Conditional probabilities in `set_proba` (lines 588-621)

Pass 2 accumulates, per language column, a map from phrase hash to the
marginal frequency (sum of record frequencies sharing that phrase hash);
pass 3 emits `freq / counts[hash(phrase)]` per column. -/

/-- Language column `c` of an alignment string (tab-split). -/
def column (al : String) (c : ℕ) : String := (strSplit al '\t').getD c ""

/-- A concrete stand-in for Python's string hash, used for closed
computations. -/
def strHash (s : String) : ℤ :=
  s.data.foldl (fun a ch => a * 1000003 + ch.toNat) 0

/-- Pass 2 of `set_proba`: the `counts[phraseHash] =
counts.get(phraseHash, 0) + freq` accumulation for one column. -/
def marginalCounts (h : String → ℤ) (records : List ALRecord) (c : ℕ) :
    List (ℤ × ℕ) :=
  records.foldl (fun m r =>
    match alookup m (h (column r.al c)) with
    | none => aset m (h (column r.al c)) r.freq
    | some x => aset m (h (column r.al c)) (x + r.freq)) []

/-- Pass 3 of `set_proba`: `1. * freq / counts[hash(phrase)]`. -/
def probaOf (h : String → ℤ) (m : List (ℤ × ℕ)) (r : ALRecord) (c : ℕ) : ℚ :=
  (r.freq : ℚ) / (((alookup m (h (column r.al c))).getD 0 : ℕ) : ℚ)

theorem marginalCounts_lookup (h : String → ℤ) (c : ℕ) :
    ∀ (records : List ALRecord) (m0 : List (ℤ × ℕ)) (k : ℤ),
      alookup (records.foldl (fun m r =>
        match alookup m (h (column r.al c)) with
        | none => aset m (h (column r.al c)) r.freq
        | some x => aset m (h (column r.al c)) (x + r.freq)) m0) k =
      match alookup m0 k with
      | some x => some (x + ((records.filter (fun r => h (column r.al c) = k)).map
          (fun r => r.freq)).sum)
      | none =>
          if records.any (fun r => h (column r.al c) = k) then
            some (((records.filter (fun r => h (column r.al c) = k)).map
              (fun r => r.freq)).sum)
          else none := by
  intro records
  induction records with
  | nil =>
      intro m0 k
      cases hl : alookup m0 k <;> simp [hl]
  | cons r rs ih =>
      intro m0 k
      rw [List.foldl_cons, ih]
      by_cases hk : h (column r.al c) = k
      · subst hk
        rcases hl : alookup m0 (h (column r.al c)) with _ | x
        · simp [hl, alookup_aset]
        · simp [hl, alookup_aset, Nat.add_assoc]
      · have hne : k ≠ h (column r.al c) := fun cc => hk cc.symm
        rcases hl : alookup m0 (h (column r.al c)) with _ | x <;>
          rcases hl2 : alookup m0 k with _ | g <;>
            simp [hl, hl2, alookup_aset, hne, hk]

theorem sum_div_list (l : List ℚ) (d : ℚ) :
    (l.map (fun x => x / d)).sum = l.sum / d := by
  induction l with
  | nil => simp
  | cons x xs ih => simp [ih, add_div]

theorem cast_sum_freqs (l : List ALRecord) :
    (((l.map (fun s => s.freq)).sum : ℕ) : ℚ) =
      (l.map (fun s => ((s.freq : ℕ) : ℚ))).sum := by
  induction l with
  | nil => simp
  | cons x xs ih =>
      simp only [List.map_cons, List.sum_cons]
      push_cast
      simp only [List.map_map]
      rw [show (Nat.cast ∘ fun s : ALRecord => s.freq) =
        (fun s : ALRecord => ((s.freq : ℕ) : ℚ)) from rfl]

/-- C4 counterexample: two records `"a\tx"` and `"a\ty"`, frequency 1
each, share column-0 phrase `"a"` with marginal frequency 2 and
probability 1/2 each, so summing frequency × probability gives 1, not
the marginal frequency 2. -/
theorem freq_times_proba_not_marginal :
    ((([⟨"a\tx", "-", 1⟩, ⟨"a\ty", "-", 1⟩] : List ALRecord).filter
        (fun r => column r.al 0 = "a")).map
      (fun r => (r.freq : ℚ) * probaOf strHash
        (marginalCounts strHash [⟨"a\tx", "-", 1⟩, ⟨"a\ty", "-", 1⟩] 0) r 0)).sum ≠
    (((([⟨"a\tx", "-", 1⟩, ⟨"a\ty", "-", 1⟩] : List ALRecord).filter
        (fun r => column r.al 0 = "a")).map (fun r => r.freq)).sum : ℚ) := by
  have hfilter : ([⟨"a\tx", "-", 1⟩, ⟨"a\ty", "-", 1⟩] : List ALRecord).filter
      (fun r => column r.al 0 = "a") = [⟨"a\tx", "-", 1⟩, ⟨"a\ty", "-", 1⟩] := by
    decide
  have hm : marginalCounts strHash [⟨"a\tx", "-", 1⟩, ⟨"a\ty", "-", 1⟩] 0 =
      [(strHash "a", 2)] := by decide
  have hcolx : column "a\tx" 0 = "a" := by decide
  have hcoly : column "a\ty" 0 = "a" := by decide
  have hal : alookup [(strHash "a", 2)] (strHash "a") = some 2 := by decide
  have hp1 : probaOf strHash [(strHash "a", 2)] ⟨"a\tx", "-", 1⟩ 0 = 1 / 2 := by
    rw [probaOf]
    show ((1 : ℕ) : ℚ) /
      (((alookup [(strHash "a", 2)] (strHash (column "a\tx" 0))).getD 0 : ℕ) : ℚ) = 1 / 2
    rw [hcolx, hal]
    norm_num
  have hp2 : probaOf strHash [(strHash "a", 2)] ⟨"a\ty", "-", 1⟩ 0 = 1 / 2 := by
    rw [probaOf]
    show ((1 : ℕ) : ℚ) /
      (((alookup [(strHash "a", 2)] (strHash (column "a\ty" 0))).getD 0 : ℕ) : ℚ) = 1 / 2
    rw [hcoly, hal]
    norm_num
  rw [hfilter, hm]
  simp only [List.map_cons, List.map_nil, List.sum_cons, List.sum_nil]
  rw [hp1, hp2]
  norm_num

/-- C4 amended.  Without hash collisions on the column, every record's
column probability equals its frequency divided by the phrase's marginal
frequency; consequently the probabilities of the records sharing the
phrase sum to exactly 1 (equivalently, each probability times the
marginal reconstructs the record's own frequency) — not the marginal
itself. -/
theorem set_proba_probabilities (h : String → ℤ) (records : List ALRecord)
    (c : ℕ) (p : String)
    (hinj : ∀ s ∈ records, h (column s.al c) = h p → column s.al c = p) :
    (∀ r ∈ records, column r.al c = p →
      probaOf h (marginalCounts h records c) r c =
        (r.freq : ℚ) / ((((records.filter (fun s => column s.al c = p)).map
          (fun s => s.freq)).sum : ℕ) : ℚ)) ∧
    (((records.filter (fun s => column s.al c = p)).map (fun s => s.freq)).sum ≠ 0 →
      ((records.filter (fun s => column s.al c = p)).map
        (fun s => probaOf h (marginalCounts h records c) s c)).sum = 1) := by
  have hfil : records.filter (fun s => h (column s.al c) = h p) =
      records.filter (fun s => column s.al c = p) := by
    apply List.filter_congr
    intro s hs
    by_cases hstr : column s.al c = p
    · simp [hstr]
    · have hh : ¬ h (column s.al c) = h p := fun hh => hstr (hinj s hs hh)
      simp [hstr, hh]
  have hlook : ∀ r ∈ records, column r.al c = p →
      alookup (marginalCounts h records c) (h (column r.al c)) =
        some (((records.filter (fun s => column s.al c = p)).map
          (fun s => s.freq)).sum) := by
    intro r hr hcol
    have hany : records.any (fun s => h (column s.al c) = h p) := by
      apply List.any_eq_true.mpr
      exact ⟨r, hr, by simp [hcol]⟩
    have := marginalCounts_lookup h c records [] (h p)
    rw [show alookup ([] : List (ℤ × ℕ)) (h p) = none from rfl] at this
    rw [hcol]
    rw [show marginalCounts h records c = records.foldl (fun m r =>
      match alookup m (h (column r.al c)) with
      | none => aset m (h (column r.al c)) r.freq
      | some x => aset m (h (column r.al c)) (x + r.freq)) [] from rfl]
    rw [this, if_pos hany, hfil]
  have hmain : ∀ r ∈ records, column r.al c = p →
      probaOf h (marginalCounts h records c) r c =
        (r.freq : ℚ) / ((((records.filter (fun s => column s.al c = p)).map
          (fun s => s.freq)).sum : ℕ) : ℚ) := by
    intro r hr hcol
    rw [probaOf, hlook r hr hcol]
    rfl
  refine ⟨hmain, ?_⟩
  intro hM
  have hmap : (records.filter (fun s => column s.al c = p)).map
      (fun s => probaOf h (marginalCounts h records c) s c) =
      (records.filter (fun s => column s.al c = p)).map
      (fun s => (s.freq : ℚ) / ((((records.filter (fun s => column s.al c = p)).map
        (fun t => t.freq)).sum : ℕ) : ℚ)) := by
    apply List.map_congr_left
    intro s hs
    rw [List.mem_filter] at hs
    exact hmain s hs.1 (by simpa using hs.2)
  rw [hmap]
  have : (records.filter (fun s => column s.al c = p)).map
      (fun s => (s.freq : ℚ) / ((((records.filter (fun s => column s.al c = p)).map
        (fun t => t.freq)).sum : ℕ) : ℚ)) =
      ((records.filter (fun s => column s.al c = p)).map
        (fun s => ((s.freq : ℕ) : ℚ))).map
        (fun x => x / ((((records.filter (fun s => column s.al c = p)).map
          (fun t => t.freq)).sum : ℕ) : ℚ)) := by
    rw [List.map_map]
    rfl
  rw [this, sum_div_list, ← cast_sum_freqs]
  apply div_self
  exact_mod_cast hM

/-- C4 witness: the concrete two-record instance through the amended
theorem: its probabilities sum to 1. -/
theorem set_proba_probabilities_witness :
    ((([⟨"a\tx", "-", 1⟩, ⟨"a\ty", "-", 1⟩] : List ALRecord).filter
        (fun s => column s.al 0 = "a")).map
      (fun s => probaOf strHash
        (marginalCounts strHash [⟨"a\tx", "-", 1⟩, ⟨"a\ty", "-", 1⟩] 0) s 0)).sum = 1 :=
  (set_proba_probabilities strHash [⟨"a\tx", "-", 1⟩, ⟨"a\ty", "-", 1⟩] 0 "a"
    (by decide)).2 (by decide)

/-! ### `merge` (lines 660-688) and the merge pipeline

`merge` parses each alignment-file line into the alignment string (all
language phrases), the lexical-weight field and the trailing integer
frequency; it runs the same first-seen/accumulate update as `align`
(storing the `alignment_lw` part, modelled as the pair of its two
fields), then hands the store and counts to `set_proba`. -/

structure MergeLine where
  al : String
  lw : String
  freq : ℕ
deriving DecidableEq

/-- The events the `merge` accumulation loop processes, in file order. -/
def mergeEvents (lines : List MergeLine) : List (AlignEvent (String × String)) :=
  lines.map (fun l => ⟨l.al, (l.al, l.lw), l.freq⟩)

/-- The accumulation phase of `merge`. -/
def mergeRun (h : String → ℤ) (lines : List MergeLine) :
    AlignState (String × String) :=
  alignRun h (mergeEvents lines)

/-- The records `set_proba` sees after `merge`: the stored unique
alignments, each with its accumulated frequency looked up from the
counts dictionary. -/
def pipelineRecords (h : String → ℤ) (lines : List MergeLine) : List ALRecord :=
  (mergeRun h lines).store.map (fun e =>
    ⟨e.1, e.2, (alookup (mergeRun h lines).counts (keyOf h e.1)).getD 0⟩)

structure OutRecord where
  al : String
  lw : String
  probas : List ℚ
  freq : ℕ
deriving DecidableEq

/-- The final formatted records of a `merge` run, in emission order:
frequency-sorted records with per-column conditional probabilities (the
column count is read off the first stored alignment, as pass 2 derives
`nbLanguages` from the first line). -/
def pipelineOutput (h : String → ℤ) (lines : List MergeLine) : List OutRecord :=
  (setProbaOrder (pipelineRecords h lines)).map (fun r =>
    ⟨r.al, r.lw,
      (List.range
        (strSplit (((mergeRun h lines).store.headD ("", "")).1) '\t').length).map
        (fun c =>
          probaOf h (marginalCounts h (setProbaOrder (pipelineRecords h lines)) c) r c),
      r.freq⟩)

/-- Keys seen after scanning a list of events. -/
def seenAfter {ρ : Type} (h : String → ℤ) (seen : List (ℕ × ℤ)) :
    List (AlignEvent ρ) → List (ℕ × ℤ)
  | [] => seen
  | e :: es =>
      if keyOf h e.alString ∈ seen then seenAfter h seen es
      else seenAfter h (keyOf h e.alString :: seen) es

theorem seenAfter_mem {ρ : Type} (h : String → ℤ) :
    ∀ (es : List (AlignEvent ρ)) (seen : List (ℕ × ℤ)) (k : ℕ × ℤ),
      k ∈ seenAfter h seen es ↔ k ∈ seen ∨ ∃ e ∈ es, keyOf h e.alString = k := by
  intro es
  induction es with
  | nil => intro seen k; simp [seenAfter]
  | cons e es ih =>
      intro seen k
      by_cases hm : keyOf h e.alString ∈ seen
      · rw [seenAfter, if_pos hm, ih]
        constructor
        · rintro (hk | hk)
          · exact Or.inl hk
          · exact Or.inr (by obtain ⟨e', he', hee⟩ := hk; exact ⟨e', by simp [he'], hee⟩)
        · rintro (hk | ⟨e', he', hee⟩)
          · exact Or.inl hk
          · rcases List.mem_cons.mp he' with rfl | he''
            · exact Or.inl (hee ▸ hm)
            · exact Or.inr ⟨e', he'', hee⟩
      · rw [seenAfter, if_neg hm, ih]
        constructor
        · rintro (hk | hk)
          · rcases List.mem_cons.mp hk with rfl | hk'
            · exact Or.inr ⟨e, by simp, rfl⟩
            · exact Or.inl hk'
          · exact Or.inr (by obtain ⟨e', he', hee⟩ := hk; exact ⟨e', by simp [he'], hee⟩)
        · rintro (hk | ⟨e', he', hee⟩)
          · exact Or.inl (by simp [hk])
          · rcases List.mem_cons.mp he' with rfl | he''
            · exact Or.inl (by simp [hee])
            · exact Or.inr ⟨e', he'', hee⟩

theorem firstRecords_append {ρ : Type} (h : String → ℤ) :
    ∀ (es es' : List (AlignEvent ρ)) (seen : List (ℕ × ℤ)),
      firstRecords h seen (es ++ es') =
        firstRecords h seen es ++ firstRecords h (seenAfter h seen es) es' := by
  intro es
  induction es with
  | nil => intro es' seen; simp [firstRecords, seenAfter]
  | cons e es ih =>
      intro es' seen
      by_cases hm : keyOf h e.alString ∈ seen
      · rw [List.cons_append, firstRecords, if_pos hm, firstRecords, if_pos hm,
          seenAfter, if_pos hm, ih]
      · rw [List.cons_append, firstRecords, if_neg hm, firstRecords, if_neg hm,
          seenAfter, if_neg hm, ih, List.cons_append]

theorem firstRecords_all_seen {ρ : Type} (h : String → ℤ) :
    ∀ (es : List (AlignEvent ρ)) (seen : List (ℕ × ℤ)),
      (∀ e ∈ es, keyOf h e.alString ∈ seen) → firstRecords h seen es = [] := by
  intro es
  induction es with
  | nil => intro seen _; rfl
  | cons e es ih =>
      intro seen hall
      rw [firstRecords, if_pos (hall e (by simp))]
      exact ih seen (fun e' he' => hall e' (by simp [he']))

/-- Scanning a list twice writes each record only once. -/
theorem firstRecords_self_append {ρ : Type} (h : String → ℤ)
    (es : List (AlignEvent ρ)) :
    firstRecords h [] (es ++ es) = firstRecords h [] es := by
  rw [firstRecords_append]
  rw [firstRecords_all_seen h es (seenAfter h [] es)
    (fun e he => (seenAfter_mem h es [] _).mpr (Or.inr ⟨e, he, rfl⟩))]
  simp

/-- Frequency doubling on a `set_proba` record. -/
def doubleRec (r : ALRecord) : ALRecord := ⟨r.al, r.lw, 2 * r.freq⟩

theorem alignRun_store_eq_firstRecords {ρ : Type} (h : String → ℤ)
    (es : List (AlignEvent ρ)) :
    (alignRun h es).store = firstRecords h [] es := by
  have := (alignRun_store_nb h es ⟨[], [], 0⟩).1
  simpa [alignRun] using this

theorem mergeRun_self_store (h : String → ℤ) (F : List MergeLine) :
    (mergeRun h (F ++ F)).store = (mergeRun h F).store := by
  have hev : mergeEvents (F ++ F) = mergeEvents F ++ mergeEvents F :=
    List.map_append _ _ _
  rw [mergeRun, mergeRun, hev, alignRun_store_eq_firstRecords,
    alignRun_store_eq_firstRecords, firstRecords_self_append]

theorem alignRun_counts_double {ρ : Type} (h : String → ℤ)
    (es : List (AlignEvent ρ)) (k : ℕ × ℤ) :
    alookup (alignRun h (es ++ es)).counts k =
      Option.map (fun x => 2 * x) (alookup (alignRun h es).counts k) := by
  have h1 := alignRun_counts h (es ++ es) ⟨[], [], 0⟩ k
  have h2 := alignRun_counts h es ⟨[], [], 0⟩ k
  simp only [show alookup (AlignState.counts ⟨[], [], 0⟩ : List ((ℕ × ℤ) × ℕ)) k = none
    from rfl] at h1 h2
  rw [alignRun, h1, alignRun, h2]
  have hany : ((es ++ es).any fun e => keyOf h e.alString = k) =
      (es.any fun e => keyOf h e.alString = k) := by
    rw [List.any_append, Bool.or_self]
  have hsum : ((List.filter (fun e => keyOf h e.alString = k) (es ++ es)).map
      (fun e => e.weight)).sum =
      2 * ((List.filter (fun e => keyOf h e.alString = k) es).map
        (fun e => e.weight)).sum := by
    rw [List.filter_append, List.map_append, List.sum_append]
    omega
  by_cases ha : (es.any fun e => keyOf h e.alString = k) = true
  · rw [hany, if_pos ha, if_pos ha, hsum]
    rfl
  · rw [hany, if_neg ha, if_neg ha]
    rfl

theorem mergeRun_counts_double (h : String → ℤ) (F : List MergeLine) (k : ℕ × ℤ) :
    alookup (mergeRun h (F ++ F)).counts k =
      Option.map (fun x => 2 * x) (alookup (mergeRun h F).counts k) := by
  have hev : mergeEvents (F ++ F) = mergeEvents F ++ mergeEvents F :=
    List.map_append _ _ _
  rw [mergeRun, hev, alignRun_counts_double]
  rfl

theorem pipelineRecords_double (h : String → ℤ) (F : List MergeLine) :
    pipelineRecords h (F ++ F) = (pipelineRecords h F).map doubleRec := by
  rw [pipelineRecords, pipelineRecords, mergeRun_self_store, List.map_map]
  apply List.map_congr_left
  intro e _
  simp only [Function.comp, doubleRec]
  rw [mergeRun_counts_double]
  cases hl : alookup (mergeRun h F).counts (keyOf h e.1) <;> simp [hl]

theorem insertDesc_map_double (x : ℕ) (l : List ℕ) :
    insertDesc (2 * x) (l.map (fun f => 2 * f)) =
      (insertDesc x l).map (fun f => 2 * f) := by
  induction l with
  | nil => rfl
  | cons y ys ih =>
      by_cases hx : y ≤ x
      · rw [List.map_cons, insertDesc, if_pos (by omega), insertDesc, if_pos hx,
          List.map_cons, List.map_cons]
      · rw [List.map_cons, insertDesc, if_neg (by omega), insertDesc, if_neg hx,
          List.map_cons, ih]

theorem sortDesc_map_double (l : List ℕ) :
    sortDesc (l.map (fun f => 2 * f)) = (sortDesc l).map (fun f => 2 * f) := by
  induction l with
  | nil => rfl
  | cons y ys ih =>
      show insertDesc (2 * y) (sortDesc (ys.map (fun f => 2 * f))) =
        (insertDesc y (sortDesc ys)).map (fun f => 2 * f)
      rw [ih, insertDesc_map_double]

theorem dedup_map_double (l : List ℕ) :
    (l.map (fun f => 2 * f)).dedup = l.dedup.map (fun f => 2 * f) := by
  induction l with
  | nil => rfl
  | cons a l ih =>
      by_cases hm : a ∈ l
      · rw [List.map_cons, List.dedup_cons_of_mem (List.mem_map.mpr ⟨a, hm, rfl⟩),
          List.dedup_cons_of_mem hm, ih]
      · have hm2 : 2 * a ∉ l.map (fun f => 2 * f) := by
          intro hc
          obtain ⟨b, hb, he⟩ := List.mem_map.mp hc
          have : b = a := by omega
          exact hm (this ▸ hb)
        rw [List.map_cons, List.dedup_cons_of_not_mem hm2,
          List.dedup_cons_of_not_mem hm, List.map_cons, ih]

theorem distinctFreqsDesc_double (records : List ALRecord) :
    distinctFreqsDesc (records.map doubleRec) =
      (distinctFreqsDesc records).map (fun f => 2 * f) := by
  rw [distinctFreqsDesc, distinctFreqsDesc, List.map_map]
  rw [show (fun r : ALRecord => r.freq) ∘ doubleRec =
    (fun f => 2 * f) ∘ (fun r : ALRecord => r.freq) from rfl]
  rw [← List.map_map, dedup_map_double, sortDesc_map_double]

theorem setProbaOrder_double (records : List ALRecord) :
    setProbaOrder (records.map doubleRec) = (setProbaOrder records).map doubleRec := by
  rw [setProbaOrder, setProbaOrder, distinctFreqsDesc_double, List.flatMap_map]
  rw [List.map_flatMap]
  apply flatMap_congr_fun
  intro f _
  show (records.map doubleRec).filter (fun r => r.freq = 2 * f) =
    (records.filter (fun r => r.freq = f)).map doubleRec
  rw [List.filter_map]
  congr 1
  apply List.filter_congr
  intro r _
  show decide ((doubleRec r).freq = 2 * f) = decide (r.freq = f)
  by_cases hr : r.freq = f
  · simp [doubleRec, hr]
  · have : ¬ (doubleRec r).freq = 2 * f := by
      simp only [doubleRec]
      omega
    simp [this, hr]

theorem sum_two_mul_freq (l : List ALRecord) :
    (l.map (fun r => 2 * r.freq)).sum = 2 * (l.map (fun r => r.freq)).sum := by
  induction l with
  | nil => rfl
  | cons x xs ih => simp [ih, Nat.mul_add]

theorem marginalCounts_double (h : String → ℤ) (records : List ALRecord)
    (c : ℕ) (k : ℤ) :
    alookup (marginalCounts h (records.map doubleRec) c) k =
      Option.map (fun x => 2 * x) (alookup (marginalCounts h records c) k) := by
  have h1 := marginalCounts_lookup h c (records.map doubleRec) [] k
  have h2 := marginalCounts_lookup h c records [] k
  simp only [show alookup ([] : List (ℤ × ℕ)) k = none from rfl] at h1 h2
  rw [marginalCounts, h1, marginalCounts, h2]
  have hany : ((records.map doubleRec).any fun r => h (column r.al c) = k) =
      (records.any fun r => h (column r.al c) = k) := by
    rw [List.any_map]
    rfl
  have hfil : (records.map doubleRec).filter (fun r => h (column r.al c) = k) =
      (records.filter (fun r => h (column r.al c) = k)).map doubleRec := by
    rw [List.filter_map]
    rfl
  have hsum : (((records.map doubleRec).filter
      (fun r => h (column r.al c) = k)).map (fun r => r.freq)).sum =
      2 * ((records.filter (fun r => h (column r.al c) = k)).map
        (fun r => r.freq)).sum := by
    rw [hfil, List.map_map]
    rw [show (fun r : ALRecord => r.freq) ∘ doubleRec =
      (fun r : ALRecord => 2 * r.freq) from rfl]
    exact sum_two_mul_freq _
  by_cases ha : (records.any fun r => h (column r.al c) = k) = true
  · rw [hany, if_pos ha, if_pos ha, hsum]
    rfl
  · rw [hany, if_neg ha, if_neg ha]
    rfl

theorem probaOf_double (h : String → ℤ) (records : List ALRecord)
    (r : ALRecord) (c : ℕ) :
    probaOf h (marginalCounts h (records.map doubleRec) c) (doubleRec r) c =
      probaOf h (marginalCounts h records c) r c := by
  rw [probaOf, probaOf]
  rw [show column (doubleRec r).al c = column r.al c from rfl]
  rw [marginalCounts_double]
  cases hl : alookup (marginalCounts h records c) (h (column r.al c)) with
  | none => simp [doubleRec]
  | some m =>
      simp only [Option.map_some, Option.getD_some]
      show (((2 * r.freq : ℕ) : ℚ)) / (((2 * m : ℕ) : ℚ)) = _
      push_cast
      rw [mul_div_mul_left _ _ (two_ne_zero)]

/-- C5.  Merging a file with itself (`merge [F, F]`) produces the same
unique alignments in the same emission order, with first-occurrence
lexical weights, identical per-column translation probabilities, and
every frequency exactly doubled, compared with merging the file once. -/
theorem merge_self_doubles (h : String → ℤ) (F : List MergeLine) :
    pipelineOutput h (F ++ F) =
      (pipelineOutput h F).map (fun o => ⟨o.al, o.lw, o.probas, 2 * o.freq⟩) := by
  rw [pipelineOutput, pipelineOutput, pipelineRecords_double, setProbaOrder_double,
    mergeRun_self_store, List.map_map, List.map_map]
  apply List.map_congr_left
  intro r _
  simp only [Function.comp, doubleRec]
  congr 1
  apply List.map_congr_left
  intro c _
  exact probaOf_double h (setProbaOrder (pipelineRecords h F)) r c

/-- C10 witness: concrete inputs through `parse_field_numbers_no_clamp`. -/
theorem parse_field_numbers_no_clamp_witness :
    parseFieldNumbers "10" 3 = .ok {10} ∧
      itemSetParts 5 ["2", ""] = .ok (Finset.Icc 2 5) :=
  ⟨(parse_field_numbers_no_clamp 5).1,
    (parse_field_numbers_no_clamp 5).2.2.2.2.1 "2" 2 (by decide)⟩

end Anymalign
